import Mathlib

/-!
Verification of the expense-settlement engine of the TravelProject backend
(`backend/routes/expenses.py`).

Monetary quantities in the source are fixed-point decimals with two decimal
places (`Decimal`, quantized with `_q2` to cents).  We embed every monetary
value as an `Int` counting cents.  On integer cents:

* `_q2` (quantize to 2 decimals, round-half-up) is the identity, because a
  value that is already a whole number of cents is unchanged by quantization;
* `_zeroish v` (`abs v < Decimal("0.005")`) holds exactly when `v = 0`,
  because `0.005` currency units is half a cent.

Python `dict`s are embedded as association lists whose keys are unique
(`dict` construction deduplicates keys keeping the first occurrence, and
iteration order is insertion order).  Python's stable `list.sort(key=...,
reverse=True)` is embedded as a stable descending insertion sort.
-/

/-- One settlement transaction, as produced by `_settle_min_transactions`:
`{"from": tx_from, "to": tx_to, "amount": amount}` (amount in cents;
the source renders it as a fixed 2-decimal string). -/
structure Tx where
  tx_from : String
  tx_to : String
  amount : Int
deriving DecidableEq, Repr

/-- One row of the `expenses` table together with its `expense_splits` rows
(the source stores splits in a separate table keyed by `expense_id`; we embed
them nested, which is equivalent for a fixed ledger snapshot).  Amount and
shares are in cents. -/
structure Expense where
  payer_id : String
  amount : Int
  splits : List (String × Int)
deriving DecidableEq, Repr

/-- The ledger of one group: its `group_members` rows and its `expenses`
rows (with their splits). -/
structure Ledger where
  members : List String
  expenses : List Expense
deriving DecidableEq, Repr

/-- One element of `ExpenseCreate.split_between`: a participant with an
optional explicit share (cents). -/
structure ParticipantShare where
  user_id : String
  share : Option Int
deriving DecidableEq, Repr

/-- The `ExpenseCreate` payload of the POST route (`group_id` is implicit:
we model a single group's ledger). -/
structure ExpenseCreate where
  payer_id : String
  amount : Int
  split_between : List ParticipantShare
deriving DecidableEq, Repr

/-- Errors raised by `add_expense`: `validation` models the
`HTTPException(status_code=400, ...)` validation rejections, `internal`
models the catch-all `HTTPException(status_code=500, ...)` (e.g. a
`TypeError` from `float(None)` when shares are only partially specified). -/
inductive AddErr where
  | validation (msg : String)
  | internal (msg : String)
deriving DecidableEq, Repr

/-- `_q2`: quantize to 2 decimals with `ROUND_HALF_UP`.  On integer cents
this is the identity. -/
def q2 (v : Int) : Int := v

/-- `_zeroish`: `value.copy_abs() < Decimal("0.005")`.  `0.005` currency
units is half a cent, so on integer cents this tests `2 * |v| < 1`,
i.e. `v = 0`. -/
def zeroish (v : Int) : Bool := decide (2 * |v| < 1)

/-- Key deduplication performed by the Python dict comprehension
`{user_id: Decimal("0") for user_id in user_ids}`: the first occurrence of
each key is kept, in order. -/
def dedup_first (seen : List String) : List String → List String
  | [] => []
  | x :: xs => if x ∈ seen then dedup_first seen xs else x :: dedup_first (x :: seen) xs

/-- `if user_id in balances: balances[user_id] += delta`: update the entry
with the given key when present, no-op otherwise. -/
def upd_if_known (b : List (String × Int)) (u : String) (delta : Int) : List (String × Int) :=
  b.map fun p => if p.1 = u then (p.1, p.2 + delta) else p

/-- `_compute_group_balances_decimal`: fold the ledger into one signed
balance (cents) per group member.  Mirrors the source: initialize every
member to 0; return early (quantized) when there are no expenses; credit
each expense's amount to its payer when the payer is a known member; debit
each split's share from its user when the user is a known member; finally
quantize and flush `zeroish` residues to 0. -/
def compute_group_balances_decimal (l : Ledger) : List (String × Int) :=
  let user_ids := dedup_first [] l.members
  let balances0 := user_ids.map fun u => (u, (0 : Int))
  if l.expenses.isEmpty then
    balances0.map fun p => (p.1, q2 p.2)
  else
    let bal1 := l.expenses.foldl (fun b e => upd_if_known b e.payer_id e.amount) balances0
    let splits := (l.expenses.map fun e => e.splits).flatten
    let bal2 := splits.foldl (fun b s => upd_if_known b s.1 (-s.2)) bal1
    bal2.map fun p => (p.1, if zeroish (q2 p.2) then 0 else q2 p.2)

/-- Stable insertion (descending by amount) used by `sort_desc`. -/
def insert_desc (x : String × Int) : List (String × Int) → List (String × Int)
  | [] => [x]
  | y :: ys => if y.2 ≤ x.2 then x :: y :: ys else y :: insert_desc x ys

/-- Python's `list.sort(key=lambda item: item[1], reverse=True)`: a stable
sort, descending by the amount component. -/
def sort_desc : List (String × Int) → List (String × Int)
  | [] => []
  | x :: xs => insert_desc x (sort_desc xs)

/-- The `while ci < len(creditors) and di < len(debtors)` loop of
`_settle_min_transactions`, on the sorted creditor and debtor lists (all
amounts positive in cents).  `pay = _q2(min(creditor_amount,
debtor_amount))`; a transaction is recorded when `pay > 0`; an index
advances when its residual amount is `_zeroish` or zero (on cents: equals
zero), otherwise the residual replaces the current entry. -/
def settle_loop : List (String × Int) → List (String × Int) → List Tx
  | [], _ => []
  | _ :: _, [] => []
  | (c, ca) :: cs, (d, da) :: ds =>
    if ca ≤ da then
      (if 0 < ca then [⟨d, c, ca⟩] else []) ++
      (if da - ca = 0 then settle_loop cs ds else settle_loop cs ((d, da - ca) :: ds))
    else
      (if 0 < da then [⟨d, c, da⟩] else []) ++ settle_loop ((c, ca - da) :: cs) ds
termination_by cs ds => cs.length + ds.length

/-- `_settle_min_transactions`: partition balances into creditors
(`balance > 0`) and debtors (`balance < 0`, stored positive), sort each
descending by amount (stable), then run the greedy matching loop. -/
def settle_min_transactions (balances : List (String × Int)) : List Tx :=
  let creditors := balances.filter fun p => 0 < p.2
  let debtors := (balances.filter fun p => p.2 < 0).map fun p => (p.1, -p.2)
  settle_loop (sort_desc creditors) (sort_desc debtors)

/-- The `GET /group/{group_id}/settle-up` route: recompute balances, raise
`HTTPException(500, "Inconsistent balances ...")` when the total is not
`_zeroish` after quantization, otherwise return the balances together with
the transaction plan.  The handler performs no writes, so it is a pure
function of the ledger. -/
def settle_up (l : Ledger) : Except String (List (String × Int) × List Tx) :=
  let balances := compute_group_balances_decimal l
  let total := (balances.map fun p => p.2).sum
  if zeroish (q2 total) then
    Except.ok (balances, settle_min_transactions balances)
  else
    Except.error "Inconsistent balances"

/-- The `GET /group/{group_id}/balances` route: compute balances, run the
settlement planner on them, and return both; the handler contains no
consistency check and no raise. -/
def compute_balances (l : Ledger) : Except String (List (String × Int) × List Tx) :=
  let balances := compute_group_balances_decimal l
  Except.ok (balances, settle_min_transactions balances)

/-- Python `round(amount / n, 2)` on an exact-decimal reading: round the
rational `a / n` (both in cents) to the nearest integer number of cents,
ties to even (Python's `round` rounds half to even). -/
def round_half_even_div (a : Int) (n : Nat) : Int :=
  if n = 0 then 0
  else
    let q := a / (n : Int)
    let r := a % (n : Int)
    if 2 * r < (n : Int) then q
    else if (n : Int) < 2 * r then q + 1
    else if q % 2 = 0 then q else q + 1

/-- The equal-split branch of `add_expense`: every participant's share is
set to `equal = round(amount / n, 2)`; then the rounding remainder
`round(amount - sum(shares), 2) = amount - n * equal` is added to the last
participant's share. -/
def allocate_equal (amount : Int) (n : Nat) : List Int :=
  match n with
  | 0 => []
  | Nat.succ m =>
    let equal := round_half_even_div amount (m + 1)
    let remainder := amount - (m + 1 : Int) * equal
    List.replicate m equal ++ [equal + remainder]

/-- The share list `add_expense` works with after the (possible) equal-split
allocation: when any participant specifies a share (`custom`), the given
optional shares are used as-is; otherwise the equal-split allocation is
applied to all participants. -/
def allocated_shares (payload : ExpenseCreate) : List (Option Int) :=
  if payload.split_between.any fun p => p.share.isSome then
    payload.split_between.map fun p => p.share
  else
    (allocate_equal payload.amount payload.split_between.length).map some

/-- The value `total_shares = round(sum(float(p["share"]) for p in parts), 2)`
computed by `add_expense`, when it is computable: `none` models the
`TypeError` raised by `float(None)` when some (but not all) participants
specify a share. -/
def allocated_total (payload : ExpenseCreate) : Option Int :=
  if (allocated_shares payload).all fun s => s.isSome then
    some (q2 ((allocated_shares payload).map fun s => s.getD 0).sum)
  else
    none

/-- The `POST /` route `add_expense`, as a function from the ledger and the
payload to an optional error and the resulting ledger.  Mirrors the source
order: reject `amount <= 0`, reject an empty participant list, allocate
equal shares when no participant specified one, compute the share total
(raising the internal error when a share is `None`), reject when the total
deviates from the amount by more than `0.01`, and only then persist the
expense row and its split rows. -/
def add_expense (l : Ledger) (payload : ExpenseCreate) : Option AddErr × Ledger :=
  if payload.amount ≤ 0 then
    (some (AddErr.validation "Amount must be > 0"), l)
  else if payload.split_between.isEmpty then
    (some (AddErr.validation "Provide at least one participant"), l)
  else
    match allocated_total payload with
    | none => (some (AddErr.internal "Failed to add expense"), l)
    | some total_shares =>
      if 1 < (total_shares - payload.amount).natAbs then
        (some (AddErr.validation "Shares must sum to amount"), l)
      else
        (none,
          ⟨l.members,
            l.expenses ++
              [⟨payload.payer_id, payload.amount,
                (payload.split_between.zip
                  ((allocated_shares payload).map fun s => s.getD 0)).map
                    fun pr => (pr.1.user_id, pr.2)⟩]⟩)

/-- Sum of the values of a balance mapping. -/
def sum_vals (b : List (String × Int)) : Int := (b.map fun p => p.2).sum

/-- Total amount held under key `u` in an association list (the value of
`u` when keys are unique, `0` when `u` is absent). -/
def amt_of (u : String) (b : List (String × Int)) : Int :=
  (b.map fun p => if p.1 = u then p.2 else 0).sum

/-- Total amount received by `u` (as `tx_to`) over a transaction list. -/
def recv_by (u : String) (txs : List Tx) : Int :=
  (txs.map fun t => if t.tx_to = u then t.amount else 0).sum

/-- Total amount paid by `u` (as `tx_from`) over a transaction list. -/
def paid_by (u : String) (txs : List Tx) : Int :=
  (txs.map fun t => if t.tx_from = u then t.amount else 0).sum

/-- Apply one settlement transaction to a balance mapping: the paying
debtor's balance increases by the amount (the debt is discharged) and the
receiving creditor's balance decreases by it. -/
def apply_tx (b : List (String × Int)) (t : Tx) : List (String × Int) :=
  b.map fun p =>
    (p.1, p.2 + (if t.tx_from = p.1 then t.amount else 0) - (if t.tx_to = p.1 then t.amount else 0))

/-- Apply a list of settlement transactions, in order. -/
def apply_txs (b : List (String × Int)) (txs : List Tx) : List (String × Int) :=
  txs.foldl apply_tx b

/-- Transaction application with the sign convention written in the claim
(creditor `+= amount`, debtor `-= amount`). -/
def apply_tx_claimed (b : List (String × Int)) (t : Tx) : List (String × Int) :=
  b.map fun p =>
    (p.1, p.2 + (if t.tx_to = p.1 then t.amount else 0) - (if t.tx_from = p.1 then t.amount else 0))

/-- `apply_tx_claimed`, folded over a transaction list. -/
def apply_txs_claimed (b : List (String × Int)) (txs : List Tx) : List (String × Int) :=
  txs.foldl apply_tx_claimed b

/-- The equal-split rule as the claim words it: every participant gets
`floor2(amount / n)` (2-decimal truncation) and the last participant gets
the amount minus the sum of all the others. -/
def floor2_equal_shares (amount : Int) (n : Nat) : List Int :=
  match n with
  | 0 => []
  | Nat.succ m =>
    let equal := amount / (m + 1 : Int)
    List.replicate m equal ++ [amount - (m : Int) * equal]

/-- A ledger whose single expense's splits are short by one cent (within
the 0.01 write-tolerance) — its balances sum to `0.01`. -/
def bad_ledger : Ledger := ⟨["A"], [⟨"A", 100, [("A", 99)]⟩]⟩

/-- A consistent two-member ledger: one 1.00 expense split exactly. -/
def good_ledger : Ledger := ⟨["A", "B"], [⟨"A", 100, [("A", 50), ("B", 50)]⟩]⟩

/-- A ledger whose single expense is paid by a user that is not a group
member, with exact splits. -/
def ghost_payer_ledger : Ledger := ⟨["A", "B"], [⟨"X", 100, [("A", 100)]⟩]⟩

/-- A zero-sum two-entry balance mapping: `{A: +1.00, B: -1.00}`. -/
def two_bal : List (String × Int) := [("A", 100), ("B", -100)]

example : settle_loop [("A", 3000)] [("C", 2000), ("B", 1000)] =
    [⟨"C", "A", 2000⟩, ⟨"B", "A", 1000⟩] := by
  simp [settle_loop]

lemma zeroish_iff (v : Int) : zeroish v = true ↔ v = 0 := by
  simp only [zeroish, decide_eq_true_eq]
  rcases le_or_lt 0 v with h | h
  · rw [abs_of_nonneg h]; omega
  · rw [abs_of_neg h]; omega

lemma val_flush (v : Int) : (if zeroish (q2 v) then (0 : Int) else q2 v) = v := by
  by_cases h : v = 0
  · subst h; simp [zeroish, q2]
  · have hz : zeroish (q2 v) = false :=
      Bool.eq_false_iff.mpr (fun ht => h ((zeroish_iff v).mp ht))
    have hz' : zeroish v = false := hz
    simp only [q2, hz', Bool.false_eq_true, if_false]

lemma sum_vals_nil : sum_vals [] = 0 := rfl

lemma sum_vals_cons (p : String × Int) (b : List (String × Int)) :
    sum_vals (p :: b) = p.2 + sum_vals b := by
  simp [sum_vals]

lemma sum_vals_flush (b : List (String × Int)) :
    sum_vals (b.map fun p => (p.1, if zeroish (q2 p.2) then 0 else q2 p.2)) = sum_vals b := by
  induction b with
  | nil => rfl
  | cons p b ih => simp [sum_vals_cons, ih, val_flush]

lemma mem_dedup_first (u : String) :
    ∀ (l seen : List String), u ∈ dedup_first seen l ↔ u ∈ l ∧ u ∉ seen := by
  intro l
  induction l with
  | nil => intro seen; simp [dedup_first]
  | cons x xs ih =>
    intro seen
    by_cases hx : x ∈ seen
    · rw [dedup_first, if_pos hx, ih]
      constructor
      · rintro ⟨h1, h2⟩; exact ⟨List.mem_cons_of_mem _ h1, h2⟩
      · rintro ⟨h1, h2⟩
        rcases List.mem_cons.mp h1 with rfl | h1
        · exact absurd hx h2
        · exact ⟨h1, h2⟩
    · rw [dedup_first, if_neg hx]
      constructor
      · intro h
        rcases List.mem_cons.mp h with rfl | h
        · exact ⟨List.mem_cons_self _ _, hx⟩
        · rcases (ih (x :: seen)).mp h with ⟨h1, h2⟩
          exact ⟨List.mem_cons_of_mem _ h1, fun hs => h2 (List.mem_cons_of_mem _ hs)⟩
      · rintro ⟨h1, h2⟩
        rcases List.mem_cons.mp h1 with rfl | h1
        · exact List.mem_cons_self _ _
        · by_cases hxu : u = x
          · subst hxu; exact List.mem_cons_self _ _
          · exact List.mem_cons_of_mem _ ((ih (x :: seen)).mpr
              ⟨h1, fun hs => by
                rcases List.mem_cons.mp hs with h | h
                · exact hxu h
                · exact h2 h⟩)

lemma nodup_dedup_first : ∀ (l seen : List String), (dedup_first seen l).Nodup := by
  intro l
  induction l with
  | nil => intro seen; simp [dedup_first]
  | cons x xs ih =>
    intro seen
    by_cases hx : x ∈ seen
    · rw [dedup_first, if_pos hx]; exact ih seen
    · rw [dedup_first, if_neg hx]
      refine List.nodup_cons.mpr ⟨?_, ih (x :: seen)⟩
      intro hmem
      exact ((mem_dedup_first x xs (x :: seen)).mp hmem).2 (List.mem_cons_self _ _)

lemma keys_upd (b : List (String × Int)) (u : String) (delta : Int) :
    (upd_if_known b u delta).map Prod.fst = b.map Prod.fst := by
  induction b with
  | nil => rfl
  | cons p b ih =>
    simp only [upd_if_known, List.map_cons] at *
    by_cases h : p.1 = u <;> simp [h, ih]

lemma upd_not_mem (b : List (String × Int)) (u : String) (delta : Int)
    (h : u ∉ b.map Prod.fst) : upd_if_known b u delta = b := by
  induction b with
  | nil => rfl
  | cons p b ih =>
    simp only [List.map_cons, List.mem_cons, not_or] at h
    simp only [upd_if_known, List.map_cons] at *
    rw [if_neg (fun hp => h.1 hp.symm)]
    simpa [upd_if_known] using ih h.2

lemma sum_vals_upd (b : List (String × Int)) (u : String) (delta : Int)
    (hmem : u ∈ b.map Prod.fst) (hnd : (b.map Prod.fst).Nodup) :
    sum_vals (upd_if_known b u delta) = sum_vals b + delta := by
  induction b with
  | nil => simp at hmem
  | cons p b ih =>
    simp only [List.map_cons, List.nodup_cons] at hnd
    by_cases h : p.1 = u
    · have hnotin : u ∉ b.map Prod.fst := h ▸ hnd.1
      simp only [upd_if_known, List.map_cons, if_pos h]
      rw [show (b.map fun q => if q.1 = u then (q.1, q.2 + delta) else q) =
            upd_if_known b u delta from rfl, upd_not_mem b u delta hnotin]
      simp [sum_vals_cons]
      ring
    · rcases List.mem_cons.mp hmem with rfl | hmem'
      · exact absurd rfl h
      · simp only [upd_if_known, List.map_cons, if_neg h]
        rw [show (b.map fun q => if q.1 = u then (q.1, q.2 + delta) else q) =
              upd_if_known b u delta from rfl]
        rw [sum_vals_cons, sum_vals_cons, ih hmem' hnd.2]
        ring

lemma sum_vals_zeros (ids : List String) :
    sum_vals (ids.map fun u => (u, (0 : Int))) = 0 := by
  induction ids with
  | nil => rfl
  | cons x xs ih => simp [List.map_cons, sum_vals_cons, ih]

lemma keys_foldl_upd {α : Type} (f : α → String) (g : α → Int) (items : List α) :
    ∀ b : List (String × Int),
      ((items.foldl (fun acc i => upd_if_known acc (f i) (g i)) b).map Prod.fst) =
        b.map Prod.fst := by
  induction items with
  | nil => intro b; rfl
  | cons x xs ih =>
    intro b
    rw [List.foldl_cons, ih, keys_upd]

lemma sum_foldl_upd {α : Type} (f : α → String) (g : α → Int) (items : List α) :
    ∀ b : List (String × Int), (b.map Prod.fst).Nodup →
      (∀ i ∈ items, f i ∈ b.map Prod.fst) →
      sum_vals (items.foldl (fun acc i => upd_if_known acc (f i) (g i)) b) =
        sum_vals b + (items.map g).sum := by
  induction items with
  | nil => intro b _ _; simp
  | cons x xs ih =>
    intro b hnd hmem
    rw [List.foldl_cons]
    have hk : (upd_if_known b (f x) (g x)).map Prod.fst = b.map Prod.fst := keys_upd ..
    rw [ih (upd_if_known b (f x) (g x)) (hk ▸ hnd)
      (fun i hi => hk ▸ hmem i (List.mem_cons_of_mem _ hi))]
    rw [sum_vals_upd b (f x) (g x) (hmem x (List.mem_cons_self _ _)) hnd]
    simp [List.map_cons]
    ring

lemma sum_map_flatten {α : Type} (g : α → Int) (L : List (List α)) :
    ((L.flatten).map g).sum = (L.map fun l => (l.map g).sum).sum := by
  induction L with
  | nil => rfl
  | cons l L ih =>
    simp only [List.flatten_cons, List.map_append, List.sum_append, ih,
      List.map_cons, List.sum_cons]

lemma sum_map_neg {α : Type} (f : α → Int) (l : List α) :
    (l.map fun a => -(f a)).sum = -((l.map f).sum) := by
  induction l with
  | nil => rfl
  | cons x xs ih => simp [ih]; ring

lemma map_q2_id (b : List (String × Int)) :
    (b.map fun p => (p.1, q2 p.2)) = b := by
  simp [q2]

lemma keys_init (ids : List String) :
    ((ids.map fun u => (u, (0 : Int))).map Prod.fst) = ids := by
  induction ids with
  | nil => rfl
  | cons x xs ih => simp_all

lemma sum_balances_eq (l : Ledger)
    (hp : ∀ e ∈ l.expenses, e.payer_id ∈ l.members)
    (hu : ∀ e ∈ l.expenses, ∀ s ∈ e.splits, s.1 ∈ l.members) :
    sum_vals (compute_group_balances_decimal l) =
      (l.expenses.map fun e => e.amount).sum -
        (l.expenses.map fun e => (e.splits.map fun s => s.2).sum).sum := by
  unfold compute_group_balances_decimal
  by_cases he : l.expenses.isEmpty
  · have hnil : l.expenses = [] := List.isEmpty_iff.mp he
    simp only [hnil, List.isEmpty_nil, if_true, List.map_nil, List.sum_nil, sub_zero]
    rw [map_q2_id, sum_vals_zeros]
  · simp only [he, Bool.false_eq_true, if_false]
    rw [sum_vals_flush]
    have hnd0 : (((dedup_first [] l.members).map fun u => (u, (0 : Int))).map Prod.fst).Nodup := by
      rw [keys_init]; exact nodup_dedup_first _ _
    have hmem_pay : ∀ e ∈ l.expenses,
        e.payer_id ∈ ((dedup_first [] l.members).map fun u => (u, (0 : Int))).map Prod.fst := by
      intro e he'
      rw [keys_init]
      exact (mem_dedup_first _ _ _).mpr ⟨hp e he', by simp⟩
    have hkeys1 : ((l.expenses.foldl
        (fun b e => upd_if_known b e.payer_id e.amount)
        ((dedup_first [] l.members).map fun u => (u, (0 : Int)))).map Prod.fst) =
        ((dedup_first [] l.members).map fun u => (u, (0 : Int))).map Prod.fst :=
      keys_foldl_upd (fun e => e.payer_id) (fun e => e.amount) l.expenses _
    have hnd1 : ((l.expenses.foldl
        (fun b e => upd_if_known b e.payer_id e.amount)
        ((dedup_first [] l.members).map fun u => (u, (0 : Int)))).map Prod.fst).Nodup := by
      rw [hkeys1]; exact hnd0
    have hmem_split : ∀ s ∈ ((l.expenses.map fun e => e.splits).flatten),
        s.1 ∈ (l.expenses.foldl
          (fun b e => upd_if_known b e.payer_id e.amount)
          ((dedup_first [] l.members).map fun u => (u, (0 : Int)))).map Prod.fst := by
      intro s hs
      rw [hkeys1, keys_init]
      rcases List.mem_flatten.mp hs with ⟨sl, hsl, hssl⟩
      rcases List.mem_map.mp hsl with ⟨e, hee, rfl⟩
      exact (mem_dedup_first _ _ _).mpr ⟨hu e hee s hssl, by simp⟩
    rw [sum_foldl_upd (fun s : String × Int => s.1) (fun s : String × Int => -s.2) _ _ hnd1
      hmem_split]
    rw [sum_foldl_upd (fun e : Expense => e.payer_id) (fun e : Expense => e.amount) _ _ hnd0
      hmem_pay]
    rw [sum_vals_zeros]
    rw [sum_map_neg (fun s : String × Int => s.2)]
    rw [sum_map_flatten (fun s : String × Int => s.2)]
    rw [List.map_map]
    ring_nf
    rfl

/-- C1 (counterexample): a ledger whose single expense's splits sum to one
cent less than the amount — within the documented 0.01 tolerance — yields
balances whose values sum to 0.01, not 0.00.  The claim as stated (splits
valid only up to the 0.01 tolerance) is therefore false. -/
theorem conservation_tolerance_counterexample :
    (∀ e ∈ bad_ledger.expenses, ((e.splits.map fun s => s.2).sum - e.amount).natAbs ≤ 1) ∧
      sum_vals (compute_group_balances_decimal bad_ledger) ≠ 0 := by
  decide

/-- C1 (amended): for every group ledger in which every expense's payer and
every split's user is a group member and each expense's splits sum exactly
to that expense's amount, the values of the balance mapping returned by
`compute_balances` (i.e. `_compute_group_balances_decimal`) sum to 0.00. -/
theorem conservation_of_exact_splits (l : Ledger)
    (hp : ∀ e ∈ l.expenses, e.payer_id ∈ l.members)
    (hu : ∀ e ∈ l.expenses, ∀ s ∈ e.splits, s.1 ∈ l.members)
    (hs : ∀ e ∈ l.expenses, (e.splits.map fun s => s.2).sum = e.amount) :
    sum_vals (compute_group_balances_decimal l) = 0 := by
  rw [sum_balances_eq l hp hu]
  have hmap : (l.expenses.map fun e => (e.splits.map fun s => s.2).sum) =
      l.expenses.map fun e => e.amount :=
    List.map_congr_left fun e he => hs e he
  rw [hmap, sub_self]

/-- C1 (witness): the amended conservation theorem applied to a concrete
consistent ledger. -/
theorem conservation_of_exact_splits_witness :
    sum_vals (compute_group_balances_decimal good_ledger) = 0 :=
  conservation_of_exact_splits good_ledger (by decide) (by decide) (by decide)

/-- C3: whenever the recomputed balances of a group sum to a nonzero number
of cents (any magnitude beyond the 0.005 tolerance), the settle-up route
returns the inconsistency error and no transaction plan.  The handler is a
pure read of the ledger (it performs no writes), so the ledger is unchanged. -/
theorem settle_up_fails_fast_on_inconsistent (l : Ledger)
    (h : sum_vals (compute_group_balances_decimal l) ≠ 0) :
    settle_up l = Except.error "Inconsistent balances" := by
  unfold settle_up
  have hz : zeroish (q2 ((compute_group_balances_decimal l).map fun p => p.2).sum) = false :=
    Bool.eq_false_iff.mpr fun ht => h ((zeroish_iff _).mp ht)
  simp only [hz, Bool.false_eq_true, if_false]

/-- C3 (witness): on the concrete inconsistent ledger the settle-up route
returns the error. -/
theorem settle_up_fails_fast_witness :
    settle_up bad_ledger = Except.error "Inconsistent balances" :=
  settle_up_fails_fast_on_inconsistent bad_ledger (by decide)

lemma sum_allocate_equal (a : Int) (n : Nat) (hn : 0 < n) :
    (allocate_equal a n).sum = a := by
  cases n with
  | zero => omega
  | succ m =>
    simp only [allocate_equal, List.sum_append, List.sum_replicate, List.sum_cons,
      List.sum_nil, smul_eq_mul]
    -- coercions already normal
    ring

lemma allocate_equal_eq (a : Int) (m : Nat) :
    allocate_equal a (m + 1) =
      List.replicate m (round_half_even_div a (m + 1)) ++
        [a - (m : Int) * round_half_even_div a (m + 1)] := by
  simp only [allocate_equal]
  congr 1
  congr 1
  ring

lemma allocated_shares_no_custom (payload : ExpenseCreate)
    (hnone : ∀ p ∈ payload.split_between, p.share = none) :
    allocated_shares payload =
      (allocate_equal payload.amount payload.split_between.length).map some := by
  unfold allocated_shares
  have hany : (payload.split_between.any fun p => p.share.isSome) = false := by
    rw [List.any_eq_false]
    intro p hp
    simp [hnone p hp]
  rw [hany]
  simp

lemma allocated_total_no_custom (payload : ExpenseCreate)
    (hne : payload.split_between ≠ [])
    (hnone : ∀ p ∈ payload.split_between, p.share = none) :
    allocated_total payload = some payload.amount := by
  unfold allocated_total
  rw [allocated_shares_no_custom payload hnone]
  have hall : (((allocate_equal payload.amount payload.split_between.length).map some).all
      fun s => s.isSome) = true := by
    rw [List.all_eq_true]
    intro s hs
    rcases List.mem_map.mp hs with ⟨x, _, rfl⟩
    rfl
  rw [if_pos hall]
  congr 1
  rw [List.map_map]
  have : ((fun s : Option Int => s.getD 0) ∘ some) = id := by
    funext x; rfl
  rw [this, List.map_id, q2]
  exact sum_allocate_equal _ _ (List.length_pos.mpr hne)

lemma zip_map_fst {α β γ : Type} (f : α → γ) (l : List α) :
    ∀ s : List β, ((l.zip s).map fun pr => (f pr.1, pr.2)) = (l.map f).zip s := by
  induction l with
  | nil => intro s; rfl
  | cons x xs ih =>
    intro s
    cases s with
    | nil => rfl
    | cons y ys => simp [ih]

lemma add_expense_no_custom (l : Ledger) (payload : ExpenseCreate)
    (ha : 0 < payload.amount) (hne : payload.split_between ≠ [])
    (hnone : ∀ p ∈ payload.split_between, p.share = none) :
    add_expense l payload =
      (none, ⟨l.members, l.expenses ++
        [⟨payload.payer_id, payload.amount,
          (payload.split_between.map fun p => p.user_id).zip
            (allocate_equal payload.amount payload.split_between.length)⟩]⟩) := by
  unfold add_expense
  rw [if_neg (by omega), if_neg (by simp [List.isEmpty_iff, hne]),
    allocated_total_no_custom payload hne hnone]
  dsimp only
  rw [if_neg (by simp)]
  rw [allocated_shares_no_custom payload hnone]
  rw [List.map_map]
  have hcomp : ((fun s : Option Int => s.getD 0) ∘ some) = id := by
    funext x; rfl
  rw [hcomp, List.map_id, zip_map_fst]

/-- C4 (counterexample): for amount 0.20 and three participants with no
explicit shares, the code assigns `round(0.20/3, 2) = 0.07` to the first
two participants and `0.06` to the last, whereas the claimed
`floor2`-truncation rule would give `[0.06, 0.06, 0.08]`.  The claim's
general allocation rule is therefore false. -/
theorem equal_split_floor2_counterexample :
    (add_expense ⟨[], []⟩ ⟨"P", 20, [⟨"u1", none⟩, ⟨"u2", none⟩, ⟨"u3", none⟩]⟩).2.expenses =
      [⟨"P", 20, [("u1", 7), ("u2", 7), ("u3", 6)]⟩] ∧
    allocate_equal 20 3 = [7, 7, 6] ∧
    floor2_equal_shares 20 3 = [6, 6, 8] ∧
    allocate_equal 20 3 ≠ floor2_equal_shares 20 3 := by
  decide

/-- C4 (amended): for every expense with amount > 0 and a non-empty
participant list in which no participant specifies a share, each non-last
participant is assigned `round(amount / n, 2)` (round-half-even, not
2-decimal truncation) and the last participant absorbs the remainder
`amount - (n-1) * round(amount / n, 2)`; in particular amount = 100.00 with
3 participants yields shares [33.33, 33.33, 33.34]. -/
theorem equal_split_round_half_even (l : Ledger) (payload : ExpenseCreate)
    (ha : 0 < payload.amount) (hne : payload.split_between ≠ [])
    (hnone : ∀ p ∈ payload.split_between, p.share = none) :
    ((add_expense l payload).1 = none ∧
      (add_expense l payload).2.expenses = l.expenses ++
        [⟨payload.payer_id, payload.amount,
          (payload.split_between.map fun p => p.user_id).zip
            (List.replicate (payload.split_between.length - 1)
                (round_half_even_div payload.amount payload.split_between.length) ++
              [payload.amount - ((payload.split_between.length : Int) - 1) *
                round_half_even_div payload.amount payload.split_between.length])⟩]) ∧
    allocate_equal 10000 3 = [3333, 3333, 3334] := by
  refine ⟨?_, by decide⟩
  rw [add_expense_no_custom l payload ha hne hnone]
  cases hsb : payload.split_between with
  | nil => exact absurd hsb hne
  | cons p ps =>
    refine ⟨rfl, ?_⟩
    simp only [hsb, List.length_cons, Nat.add_sub_cancel]
    rw [show ((ps.length + 1 : Nat) : Int) - 1 = (ps.length : Int) by push_cast; ring]
    rw [allocate_equal_eq]

/-- C4 (witness): the amended allocation theorem applied to the concrete
100.00-among-3 payload. -/
theorem equal_split_round_half_even_witness :
    (add_expense ⟨[], []⟩ ⟨"P", 10000, [⟨"u1", none⟩, ⟨"u2", none⟩, ⟨"u3", none⟩]⟩).1 = none :=
  (equal_split_round_half_even ⟨[], []⟩ ⟨"P", 10000, [⟨"u1", none⟩, ⟨"u2", none⟩, ⟨"u3", none⟩]⟩
    (by decide) (by decide) (by decide)).1.1

/-- C5: for every amount > 0 and participant count n > 0 (no explicit
shares), the equal-split allocation produces shares summing exactly to the
amount, with the last share carrying the rounding remainder
`amount - (n-1) * round(amount / n, 2)`. -/
theorem equal_split_exact (a : Int) (n : Nat) (ha : 0 < a) (hn : 0 < n) :
    (allocate_equal a n).sum = a ∧
    (allocate_equal a n).getLast? =
      some (a - ((n : Int) - 1) * round_half_even_div a n) := by
  refine ⟨sum_allocate_equal a n hn, ?_⟩
  cases n with
  | zero => omega
  | succ m =>
    rw [allocate_equal_eq]
    rw [List.getLast?_concat]
    congr 1
    push_cast
    ring

/-- C5 (witness): equal-split exactness at the concrete 100.00-among-3
instance. -/
theorem equal_split_exact_witness : (allocate_equal 10000 3).sum = 10000 :=
  (equal_split_exact 10000 3 (by decide) (by decide)).1

/-- C8: `add_expense` rejects with a validation error (HTTP 400) exactly
when the amount is ≤ 0, the participant list is empty, or the
(possibly allocated) share total is defined and deviates from the amount by
more than 0.01; and whenever it rejects (for any reason) the ledger is
unchanged — no expense row and no split row is persisted. -/
theorem add_expense_validation_iff (l : Ledger) (payload : ExpenseCreate) :
    ((∃ m, (add_expense l payload).1 = some (AddErr.validation m)) ↔
      (payload.amount ≤ 0 ∨ payload.split_between = [] ∨
        ∃ t, allocated_total payload = some t ∧ 1 < (t - payload.amount).natAbs)) ∧
    ((add_expense l payload).1 ≠ none → (add_expense l payload).2 = l) := by
  unfold add_expense
  by_cases h1 : payload.amount ≤ 0
  · rw [if_pos h1]
    exact ⟨⟨fun _ => Or.inl h1, fun _ => ⟨_, rfl⟩⟩, fun _ => rfl⟩
  · rw [if_neg h1]
    by_cases h2 : payload.split_between.isEmpty
    · rw [if_pos h2]
      exact ⟨⟨fun _ => Or.inr (Or.inl (List.isEmpty_iff.mp h2)), fun _ => ⟨_, rfl⟩⟩,
        fun _ => rfl⟩
    · rw [if_neg h2]
      have h2' : payload.split_between ≠ [] := fun hn => h2 (by simp [hn])
      cases hat : allocated_total payload with
      | none =>
        dsimp only
        refine ⟨⟨?_, ?_⟩, fun _ => rfl⟩
        · rintro ⟨m, hm⟩
          cases hm
        · rintro (h | h | ⟨t, ht, _⟩)
          · exact absurd h h1
          · exact absurd h h2'
          · exact Option.noConfusion ht
      | some t =>
        dsimp only
        by_cases h3 : 1 < (t - payload.amount).natAbs
        · rw [if_pos h3]
          exact ⟨⟨fun _ => Or.inr (Or.inr ⟨t, rfl, h3⟩), fun _ => ⟨_, rfl⟩⟩, fun _ => rfl⟩
        · rw [if_neg h3]
          refine ⟨⟨?_, ?_⟩, ?_⟩
          · rintro ⟨m, hm⟩
            cases hm
          · rintro (h | h | ⟨t', ht', hd⟩)
            · exact absurd h h1
            · exact absurd h h2'
            · injection ht' with ht''
              subst ht''
              exact absurd hd h3
          · intro hne
            exact absurd rfl hne

/-- C8 (witness): a payload with a non-positive amount is rejected with a
validation error. -/
theorem add_expense_validation_iff_witness :
    ∃ m, (add_expense ⟨[], []⟩ ⟨"P", 0, [⟨"u1", none⟩]⟩).1 = some (AddErr.validation m) :=
  (add_expense_validation_iff ⟨[], []⟩ ⟨"P", 0, [⟨"u1", none⟩]⟩).1.mpr (Or.inl (by decide))

lemma amt_of_nil (u : String) : amt_of u [] = 0 := rfl

lemma amt_of_cons (u : String) (p : String × Int) (b : List (String × Int)) :
    amt_of u (p :: b) = (if p.1 = u then p.2 else 0) + amt_of u b := by
  simp [amt_of]

lemma recv_by_nil (u : String) : recv_by u [] = 0 := rfl

lemma recv_by_cons (u : String) (t : Tx) (ts : List Tx) :
    recv_by u (t :: ts) = (if t.tx_to = u then t.amount else 0) + recv_by u ts := by
  simp [recv_by]

lemma paid_by_nil (u : String) : paid_by u [] = 0 := rfl

lemma paid_by_cons (u : String) (t : Tx) (ts : List Tx) :
    paid_by u (t :: ts) = (if t.tx_from = u then t.amount else 0) + paid_by u ts := by
  simp [paid_by]

lemma sum_vals_nonneg (l : List (String × Int)) (h : ∀ p ∈ l, 0 ≤ p.2) :
    0 ≤ sum_vals l := by
  induction l with
  | nil => simp [sum_vals_nil]
  | cons p b ih =>
    rw [sum_vals_cons]
    have h1 := h p (List.mem_cons_self _ _)
    have h2 := ih fun q hq => h q (List.mem_cons_of_mem _ hq)
    omega

lemma eq_nil_of_pos_sum_zero (l : List (String × Int))
    (hpos : ∀ p ∈ l, 0 < p.2) (h0 : sum_vals l = 0) : l = [] := by
  cases l with
  | nil => rfl
  | cons p b =>
    exfalso
    rw [sum_vals_cons] at h0
    have h1 := hpos p (List.mem_cons_self _ _)
    have h2 := sum_vals_nonneg b fun q hq => le_of_lt (hpos q (List.mem_cons_of_mem _ hq))
    omega

lemma settle_loop_discharge (cs ds : List (String × Int)) :
    (∀ p ∈ cs, 0 < p.2) → (∀ p ∈ ds, 0 < p.2) → sum_vals cs = sum_vals ds →
    ∀ u, recv_by u (settle_loop cs ds) = amt_of u cs ∧
      paid_by u (settle_loop cs ds) = amt_of u ds := by
  induction cs, ds using settle_loop.induct with
  | case1 ds =>
    intro _ hd h0 u
    have hnil : ds = [] := eq_nil_of_pos_sum_zero ds hd (by simpa [sum_vals_nil] using h0.symm)
    subst hnil
    simp [settle_loop, recv_by_nil, paid_by_nil, amt_of_nil]
  | case2 head tail =>
    intro hc _ h0 u
    exact absurd (eq_nil_of_pos_sum_zero _ hc (by simpa [sum_vals_nil] using h0)) (by simp)
  | case3 c ca cs d da ds hle ih1 ih2 =>
    intro hc hd h0 u
    have hca : 0 < ca := hc (c, ca) (List.mem_cons_self _ _)
    have hda : 0 < da := hd (d, da) (List.mem_cons_self _ _)
    have hc' : ∀ p ∈ cs, 0 < p.2 := fun p hp => hc p (List.mem_cons_of_mem _ hp)
    have hd' : ∀ p ∈ ds, 0 < p.2 := fun p hp => hd p (List.mem_cons_of_mem _ hp)
    rw [sum_vals_cons, sum_vals_cons] at h0
    rw [settle_loop, if_pos hle, if_pos hca]
    by_cases hz : da - ca = 0
    · rw [if_pos hz]
      have ih := ih1 hc' hd' (by omega) u
      rw [List.singleton_append, recv_by_cons, paid_by_cons, ih.1, ih.2,
        amt_of_cons, amt_of_cons]
      constructor
      · rfl
      · by_cases hdu : d = u <;> simp [hdu] <;> omega
    · rw [if_neg hz]
      have hds' : ∀ p ∈ (d, da - ca) :: ds, 0 < p.2 := by
        intro p hp
        rcases List.mem_cons.mp hp with rfl | hp
        · simp; omega
        · exact hd' p hp
      have hsum : sum_vals cs = sum_vals ((d, da - ca) :: ds) := by
        rw [sum_vals_cons]; omega
      have ih := ih2 hc' hds' hsum u
      rw [List.singleton_append, recv_by_cons, paid_by_cons, ih.1, ih.2,
        amt_of_cons, amt_of_cons, amt_of_cons]
      constructor
      · rfl
      · by_cases hdu : d = u <;> simp [hdu] <;> omega
  | case4 c ca cs d da ds hle ih =>
    intro hc hd h0 u
    have hca : 0 < ca := hc (c, ca) (List.mem_cons_self _ _)
    have hda : 0 < da := hd (d, da) (List.mem_cons_self _ _)
    have hc' : ∀ p ∈ cs, 0 < p.2 := fun p hp => hc p (List.mem_cons_of_mem _ hp)
    have hd' : ∀ p ∈ ds, 0 < p.2 := fun p hp => hd p (List.mem_cons_of_mem _ hp)
    rw [sum_vals_cons, sum_vals_cons] at h0
    rw [settle_loop, if_neg hle, if_pos hda]
    have hcs' : ∀ p ∈ (c, ca - da) :: cs, 0 < p.2 := by
      intro p hp
      rcases List.mem_cons.mp hp with rfl | hp
      · simp; omega
      · exact hc' p hp
    have hsum : sum_vals ((c, ca - da) :: cs) = sum_vals ds := by
      rw [sum_vals_cons]; omega
    have ih' := ih hcs' hd' hsum u
    rw [List.singleton_append, recv_by_cons, paid_by_cons, ih'.1, ih'.2,
      amt_of_cons, amt_of_cons, amt_of_cons]
    constructor
    · by_cases hcu : c = u <;> simp [hcu] <;> omega
    · rfl

lemma perm_insert_desc (x : String × Int) (l : List (String × Int)) :
    (insert_desc x l).Perm (x :: l) := by
  induction l with
  | nil => exact List.Perm.refl _
  | cons y ys ih =>
    rw [insert_desc]
    by_cases h : y.2 ≤ x.2
    · rw [if_pos h]
    · rw [if_neg h]
      exact (ih.cons y).trans (List.Perm.swap x y ys)

lemma perm_sort_desc (l : List (String × Int)) : (sort_desc l).Perm l := by
  induction l with
  | nil => exact List.Perm.refl _
  | cons x xs ih =>
    rw [sort_desc]
    exact (perm_insert_desc x (sort_desc xs)).trans (ih.cons x)

lemma sum_vals_perm {l l' : List (String × Int)} (h : l.Perm l') :
    sum_vals l = sum_vals l' := by
  unfold sum_vals
  exact (h.map fun p => p.2).sum_eq

lemma amt_of_perm (u : String) {l l' : List (String × Int)} (h : l.Perm l') :
    amt_of u l = amt_of u l' := by
  unfold amt_of
  exact (h.map fun p => if p.1 = u then p.2 else 0).sum_eq

lemma sum_vals_partition (b : List (String × Int)) :
    sum_vals b = sum_vals (b.filter fun p => 0 < p.2) +
      sum_vals (b.filter fun p => p.2 < 0) := by
  induction b with
  | nil => rfl
  | cons p b ih =>
    rcases lt_trichotomy p.2 0 with h | h | h
    · have h1 : (decide (0 < p.2)) = false := by simp; omega
      have h2 : (decide (p.2 < 0)) = true := by simp [h]
      simp only [List.filter_cons, h1, h2, if_false, if_true, sum_vals_cons, ih,
        Bool.false_eq_true]
      ring
    · have h1 : (decide (0 < p.2)) = false := by simp [h]
      have h2 : (decide (p.2 < 0)) = false := by simp [h]
      simp only [List.filter_cons, h1, h2, if_false, sum_vals_cons, ih, Bool.false_eq_true]
      omega
    · have h1 : (decide (0 < p.2)) = true := by simp [h]
      have h2 : (decide (p.2 < 0)) = false := by simp; omega
      simp only [List.filter_cons, h1, h2, if_true, if_false, sum_vals_cons, ih,
        Bool.false_eq_true]
      ring

lemma sum_vals_map_neg (l : List (String × Int)) :
    sum_vals (l.map fun p => (p.1, -p.2)) = -(sum_vals l) := by
  induction l with
  | nil => rfl
  | cons p b ih => simp only [List.map_cons, sum_vals_cons, ih]; ring

lemma val_unique (b : List (String × Int)) (u : String) (v w : Int)
    (hnd : (b.map Prod.fst).Nodup) (hv : (u, v) ∈ b) (hw : (u, w) ∈ b) : v = w := by
  induction b with
  | nil => simp at hv
  | cons p b ih =>
    simp only [List.map_cons, List.nodup_cons] at hnd
    rcases List.mem_cons.mp hv with rfl | hv'
    · rcases List.mem_cons.mp hw with h | hw'
      · exact (Prod.mk.injEq .. ▸ h).2.symm ▸ rfl
      · exact absurd (List.mem_map.mpr ⟨(u, w), hw', rfl⟩) hnd.1
    · rcases List.mem_cons.mp hw with rfl | hw'
      · exact absurd (List.mem_map.mpr ⟨(u, v), hv', rfl⟩) hnd.1
      · exact ih hnd.2 hv' hw'

lemma amt_of_not_mem (u : String) (b : List (String × Int))
    (h : u ∉ b.map Prod.fst) : amt_of u b = 0 := by
  induction b with
  | nil => rfl
  | cons p b ih =>
    simp only [List.map_cons, List.mem_cons, not_or] at h
    rw [amt_of_cons, if_neg (fun hp => h.1 hp.symm), ih h.2]
    ring

lemma amt_of_nodup (u : String) (v : Int) (b : List (String × Int))
    (hnd : (b.map Prod.fst).Nodup) (hmem : (u, v) ∈ b) : amt_of u b = v := by
  induction b with
  | nil => simp at hmem
  | cons p b ih =>
    simp only [List.map_cons, List.nodup_cons] at hnd
    rcases List.mem_cons.mp hmem with rfl | hmem'
    · rw [amt_of_cons, if_pos rfl,
        amt_of_not_mem u b hnd.1]
      ring
    · have hne : p.1 ≠ u := by
        intro hp
        exact hnd.1 (hp ▸ List.mem_map.mpr ⟨(u, v), hmem', rfl⟩)
      rw [amt_of_cons, if_neg hne, ih hnd.2 hmem']
      ring

lemma keys_filter_sublist (b : List (String × Int)) (q : (String × Int) → Bool) :
    ((b.filter q).map Prod.fst).Sublist (b.map Prod.fst) :=
  (List.filter_sublist b).map Prod.fst

lemma amt_of_creditors (b : List (String × Int)) (u : String) (v : Int)
    (hnd : (b.map Prod.fst).Nodup) (hmem : (u, v) ∈ b) :
    amt_of u (b.filter fun p => 0 < p.2) = if 0 < v then v else 0 := by
  by_cases hv : 0 < v
  · rw [if_pos hv]
    refine amt_of_nodup u v _ ((keys_filter_sublist b _).nodup hnd) ?_
    exact List.mem_filter.mpr ⟨hmem, by simp [hv]⟩
  · rw [if_neg hv]
    refine amt_of_not_mem u _ ?_
    intro hu
    rcases List.mem_map.mp hu with ⟨p, hp, hp1⟩
    rcases List.mem_filter.mp hp with ⟨hpb, hppos⟩
    have hv2 : p.2 = v := by
      refine val_unique b u p.2 v hnd ?_ hmem
      rw [← hp1]
      exact hpb
    simp only [decide_eq_true_eq] at hppos
    omega

lemma amt_of_debtors (b : List (String × Int)) (u : String) (v : Int)
    (hnd : (b.map Prod.fst).Nodup) (hmem : (u, v) ∈ b) :
    amt_of u ((b.filter fun p => p.2 < 0).map fun p => (p.1, -p.2)) =
      if v < 0 then -v else 0 := by
  have hkeys : (((b.filter fun p => p.2 < 0).map fun p => (p.1, -p.2)).map Prod.fst) =
      ((b.filter fun p => p.2 < 0).map Prod.fst) := by
    rw [List.map_map]
    rfl
  by_cases hv : v < 0
  · rw [if_pos hv]
    refine amt_of_nodup u (-v) _ ?_ ?_
    · rw [hkeys]
      exact (keys_filter_sublist b _).nodup hnd
    · exact List.mem_map.mpr ⟨(u, v), List.mem_filter.mpr ⟨hmem, by simp [hv]⟩, rfl⟩
  · rw [if_neg hv]
    refine amt_of_not_mem u _ ?_
    rw [hkeys]
    intro hu
    rcases List.mem_map.mp hu with ⟨p, hp, hp1⟩
    rcases List.mem_filter.mp hp with ⟨hpb, hpneg⟩
    have hv2 : p.2 = v := by
      refine val_unique b u p.2 v hnd ?_ hmem
      rw [← hp1]
      exact hpb
    simp only [decide_eq_true_eq] at hpneg
    omega

lemma apply_txs_eq (txs : List Tx) :
    ∀ b : List (String × Int), apply_txs b txs =
      b.map fun p => (p.1, p.2 + paid_by p.1 txs - recv_by p.1 txs) := by
  induction txs with
  | nil =>
    intro b
    simp [apply_txs, paid_by_nil, recv_by_nil]
  | cons t ts ih =>
    intro b
    rw [show apply_txs b (t :: ts) = apply_txs (apply_tx b t) ts from rfl, ih, apply_tx,
      List.map_map]
    refine List.map_congr_left fun p _ => ?_
    simp only [Function.comp_apply, paid_by_cons, recv_by_cons, Prod.mk.injEq, true_and]
    ring

/-- C2 (counterexample): for the zero-sum balances `{A: +1.00, B: -1.00}`
the planner emits a single transaction `B -> A 1.00`; applying it with the
claim's sign convention (creditor `+=`, debtor `-=`) yields `{A: 2.00,
B: -2.00}`, not all-zero.  The claim's update rule is inverted. -/
theorem settlement_claimed_sign_counterexample :
    sum_vals two_bal = 0 ∧
    ¬ (∀ p ∈ apply_txs_claimed two_bal (settle_min_transactions two_bal), p.2 = 0) := by
  have hs : settle_min_transactions two_bal = [⟨"B", "A", 100⟩] := by
    simp [settle_min_transactions, two_bal, sort_desc, insert_desc, settle_loop]
  refine ⟨by decide, ?_⟩
  rw [hs]
  decide

/-- C2 (amended): for every balance mapping with unique user ids whose
values sum to zero, applying every transaction emitted by the settlement
planner — the receiving creditor's balance decreases by the amount, the
paying debtor's balance increases by it — yields all-zero balances. -/
theorem settlement_discharges_zero_sum (b : List (String × Int))
    (hnd : (b.map Prod.fst).Nodup) (h0 : sum_vals b = 0) :
    ∀ p ∈ apply_txs b (settle_min_transactions b), p.2 = 0 := by
  have hC : ∀ p ∈ sort_desc (b.filter fun p => 0 < p.2), 0 < p.2 := by
    intro p hp
    have hpf := (perm_sort_desc _).mem_iff.mp hp
    have := (List.mem_filter.mp hpf).2
    simpa using this
  have hD : ∀ p ∈ sort_desc ((b.filter fun p => p.2 < 0).map fun p => (p.1, -p.2)),
      0 < p.2 := by
    intro p hp
    have hpf := (perm_sort_desc _).mem_iff.mp hp
    rcases List.mem_map.mp hpf with ⟨r, hr, rfl⟩
    have := (List.mem_filter.mp hr).2
    simp only [decide_eq_true_eq] at this
    simpa using this
  have hsum : sum_vals (sort_desc (b.filter fun p => 0 < p.2)) =
      sum_vals (sort_desc ((b.filter fun p => p.2 < 0).map fun p => (p.1, -p.2))) := by
    rw [sum_vals_perm (perm_sort_desc _), sum_vals_perm (perm_sort_desc _), sum_vals_map_neg]
    have := sum_vals_partition b
    omega
  have hdis := settle_loop_discharge _ _ hC hD hsum
  intro p hp
  rw [show settle_min_transactions b =
      settle_loop (sort_desc (b.filter fun p => 0 < p.2))
        (sort_desc ((b.filter fun p => p.2 < 0).map fun p => (p.1, -p.2))) from rfl,
    apply_txs_eq] at hp
  rcases List.mem_map.mp hp with ⟨q, hq, rfl⟩
  obtain ⟨hrecv, hpaid⟩ := hdis q.1
  rw [amt_of_perm q.1 (perm_sort_desc _)] at hrecv hpaid
  rw [amt_of_creditors b q.1 q.2 hnd (by rw [Prod.mk.eta]; exact hq)] at hrecv
  rw [amt_of_debtors b q.1 q.2 hnd (by rw [Prod.mk.eta]; exact hq)] at hpaid
  show q.2 + _ - _ = 0
  rw [hrecv, hpaid]
  split_ifs <;> omega

/-- C2 (witness): the amended settlement theorem applied to the concrete
zero-sum balances `{A: +1.00, B: -1.00}`. -/
theorem settlement_discharges_zero_sum_witness :
    ((apply_txs two_bal (settle_min_transactions two_bal)).all fun p => p.2 == 0) = true :=
  List.all_eq_true.mpr fun p hp => beq_iff_eq.mpr
    (settlement_discharges_zero_sum two_bal (by decide) (by decide) p hp)

lemma settle_loop_nil_right (cs : List (String × Int)) : settle_loop cs [] = [] := by
  cases cs with
  | nil => simp [settle_loop]
  | cons c cs => simp [settle_loop]

lemma settle_loop_length (cs ds : List (String × Int)) :
    cs = [] ∨ ds = [] ∨ (settle_loop cs ds).length + 1 ≤ cs.length + ds.length := by
  induction cs, ds using settle_loop.induct with
  | case1 ds => exact Or.inl rfl
  | case2 head tail => exact Or.inr (Or.inl rfl)
  | case3 c ca cs d da ds hle ih1 ih2 =>
    refine Or.inr (Or.inr ?_)
    rw [settle_loop, if_pos hle]
    have hif : (if 0 < ca then [(⟨d, c, ca⟩ : Tx)] else []).length ≤ 1 := by
      split <;> simp
    by_cases hz : da - ca = 0
    · rw [if_pos hz, List.length_append]
      rcases ih1 with h | h | h
      · subst h
        have hz1 : settle_loop ([] : List (String × Int)) ds = [] := by simp [settle_loop]
        rw [hz1]
        simp only [List.length_nil, List.length_cons]
        omega
      · subst h
        rw [settle_loop_nil_right]
        simp only [List.length_nil, List.length_cons]
        omega
      · simp only [List.length_cons]
        omega
    · rw [if_neg hz, List.length_append]
      rcases ih2 with h | h | h
      · subst h
        have hz1 : settle_loop ([] : List (String × Int)) ((d, da - ca) :: ds) = [] := by
          simp [settle_loop]
        rw [hz1]
        simp only [List.length_nil, List.length_cons]
        omega
      · exact absurd h (by simp)
      · simp only [List.length_cons] at h ⊢
        omega
  | case4 c ca cs d da ds hle ih =>
    refine Or.inr (Or.inr ?_)
    rw [settle_loop, if_neg hle]
    have hif : (if 0 < da then [(⟨d, c, da⟩ : Tx)] else []).length ≤ 1 := by
      split <;> simp
    rw [List.length_append]
    rcases ih with h | h | h
    · exact absurd h (by simp)
    · subst h
      rw [settle_loop_nil_right]
      simp only [List.length_nil, List.length_cons]
      omega
    · simp only [List.length_cons] at h ⊢
      omega

/-- C6: whenever at least one member has a positive balance and at least
one member has a negative balance, the number of transactions emitted by
`_settle_min_transactions` is at most (number of creditors) +
(number of debtors) - 1. -/
theorem settlement_transaction_bound (b : List (String × Int))
    (hc : ∃ p ∈ b, 0 < p.2) (hd : ∃ p ∈ b, p.2 < 0) :
    (settle_min_transactions b).length ≤
      (b.filter fun p => 0 < p.2).length + (b.filter fun p => p.2 < 0).length - 1 := by
  obtain ⟨pc, hpc, hpc2⟩ := hc
  obtain ⟨pd, hpd, hpd2⟩ := hd
  have hCmem : pc ∈ sort_desc (b.filter fun p => 0 < p.2) :=
    (perm_sort_desc _).mem_iff.mpr (List.mem_filter.mpr ⟨hpc, by simp [hpc2]⟩)
  have hDmem : (pd.1, -pd.2) ∈ sort_desc ((b.filter fun p => p.2 < 0).map fun p => (p.1, -p.2)) :=
    (perm_sort_desc _).mem_iff.mpr
      (List.mem_map.mpr ⟨pd, List.mem_filter.mpr ⟨hpd, by simp [hpd2]⟩, rfl⟩)
  have hlenC : (sort_desc (b.filter fun p => 0 < p.2)).length =
      (b.filter fun p => 0 < p.2).length := (perm_sort_desc _).length_eq
  have hlenD : (sort_desc ((b.filter fun p => p.2 < 0).map fun p => (p.1, -p.2))).length =
      (b.filter fun p => p.2 < 0).length := by
    rw [(perm_sort_desc _).length_eq, List.length_map]
  rcases settle_loop_length (sort_desc (b.filter fun p => 0 < p.2))
      (sort_desc ((b.filter fun p => p.2 < 0).map fun p => (p.1, -p.2))) with h | h | h
  · rw [h] at hCmem
    simp at hCmem
  · rw [h] at hDmem
    simp at hDmem
  · rw [show settle_min_transactions b =
        settle_loop (sort_desc (b.filter fun p => 0 < p.2))
          (sort_desc ((b.filter fun p => p.2 < 0).map fun p => (p.1, -p.2))) from rfl]
    omega

/-- C6 (witness): the transaction bound applied to the concrete balances
`{A: +1.00, B: -1.00}`. -/
theorem settlement_transaction_bound_witness :
    (settle_min_transactions two_bal).length ≤
      (two_bal.filter fun p => 0 < p.2).length + (two_bal.filter fun p => p.2 < 0).length - 1 :=
  settlement_transaction_bound two_bal ⟨("A", 100), by decide, by decide⟩
    ⟨("B", -100), by decide, by decide⟩

/-- C7: for the balances `{A: +30.00, B: -10.00, C: -20.00}` the planner
emits exactly `[C -> A 20.00, B -> A 10.00]`, in that order (largest
creditor matched with largest debtor first). -/
theorem settlement_greedy_order :
    settle_min_transactions [("A", 3000), ("B", -1000), ("C", -2000)] =
      [⟨"C", "A", 2000⟩, ⟨"B", "A", 1000⟩] := by
  simp [settle_min_transactions, sort_desc, insert_desc, settle_loop]

/-- C9: an expense whose payer is not a group member contributes nothing to
any balance — the balances are unchanged if its amount is replaced by any
other value — while its splits are still debited; consequently there are
ledgers whose expenses all have exactly-summing splits and whose balances
nevertheless do not sum to zero. -/
theorem ghost_payer_contributes_nothing :
    (∀ (m : List String) (es : List Expense) (e : Expense) (a : Int),
      e.payer_id ∉ m →
      compute_group_balances_decimal ⟨m, e :: es⟩ =
        compute_group_balances_decimal ⟨m, { e with amount := a } :: es⟩) ∧
    ((∀ e ∈ ghost_payer_ledger.expenses, (e.splits.map fun s => s.2).sum = e.amount) ∧
      sum_vals (compute_group_balances_decimal ghost_payer_ledger) ≠ 0) := by
  constructor
  · intro m es e a hnm
    have hkey : e.payer_id ∉ (((dedup_first [] m).map fun u => (u, (0 : Int))).map Prod.fst) := by
      rw [keys_init]
      intro hmem
      exact hnm ((mem_dedup_first _ _ _).mp hmem).1
    unfold compute_group_balances_decimal
    simp only [List.isEmpty_cons, Bool.false_eq_true, if_false, List.foldl_cons, List.map_cons]
    rw [upd_not_mem _ _ _ hkey, upd_not_mem _ _ _ hkey]
  · exact ⟨by decide, by decide⟩

/-- C9 (witness): the amount-irrelevance statement applied at a concrete
non-member payer. -/
theorem ghost_payer_contributes_nothing_witness :
    compute_group_balances_decimal ⟨["A"], [⟨"X", 7, []⟩]⟩ =
      compute_group_balances_decimal ⟨["A"], [⟨"X", 55, []⟩]⟩ :=
  ghost_payer_contributes_nothing.1 ["A"] [] ⟨"X", 7, []⟩ 55 (by decide)

lemma sum_vals_zero_of_all (b : List (String × Int)) (h : ∀ p ∈ b, p.2 = 0) :
    sum_vals b = 0 := by
  induction b with
  | nil => rfl
  | cons p b ih =>
    rw [sum_vals_cons, h p (List.mem_cons_self _ _),
      ih fun q hq => h q (List.mem_cons_of_mem _ hq)]
    omega

lemma keys_map_snd (b : List (String × Int)) (f : (String × Int) → Int) :
    ((b.map fun p => (p.1, f p)).map Prod.fst) = b.map Prod.fst := by
  rw [List.map_map]
  rfl

lemma keys_balances (l : Ledger) :
    (compute_group_balances_decimal l).map Prod.fst = dedup_first [] l.members := by
  unfold compute_group_balances_decimal
  by_cases he : l.expenses.isEmpty
  · simp only [he, if_true]
    rw [keys_map_snd, keys_init]
  · simp only [he, Bool.false_eq_true, if_false]
    rw [keys_map_snd,
      keys_foldl_upd (fun s : String × Int => s.1) (fun s : String × Int => -s.2),
      keys_foldl_upd (fun e : Expense => e.payer_id) (fun e : Expense => e.amount),
      keys_init]

lemma sum_ite_key_zero (u : String) (a : Int) (b : List (String × Int))
    (h : u ∉ b.map Prod.fst) :
    (b.map fun p => if u = p.1 then a else 0).sum = 0 := by
  induction b with
  | nil => rfl
  | cons p b ih =>
    simp only [List.map_cons, List.mem_cons, not_or] at h
    rw [List.map_cons, List.sum_cons, if_neg h.1, ih h.2, zero_add]

lemma sum_ite_key (u : String) (a : Int) (b : List (String × Int))
    (hnd : (b.map Prod.fst).Nodup) (hu : u ∈ b.map Prod.fst) :
    (b.map fun p => if u = p.1 then a else 0).sum = a := by
  induction b with
  | nil => simp at hu
  | cons p b ih =>
    simp only [List.map_cons, List.nodup_cons] at hnd
    by_cases hp : u = p.1
    · rw [List.map_cons, List.sum_cons, if_pos hp,
        sum_ite_key_zero u a b (hp ▸ hnd.1), add_zero]
    · rcases List.mem_cons.mp hu with h | h
      · exact absurd h hp
      · rw [List.map_cons, List.sum_cons, if_neg hp, ih hnd.2 h, zero_add]

lemma sum_vals_apply_tx_eq (b : List (String × Int)) (t : Tx) :
    sum_vals (apply_tx b t) = sum_vals b +
      (b.map fun p => if t.tx_from = p.1 then t.amount else 0).sum -
      (b.map fun p => if t.tx_to = p.1 then t.amount else 0).sum := by
  induction b with
  | nil => rfl
  | cons p b ih =>
    rw [show apply_tx (p :: b) t =
        (p.1, p.2 + (if t.tx_from = p.1 then t.amount else 0) -
          (if t.tx_to = p.1 then t.amount else 0)) :: apply_tx b t from rfl,
      sum_vals_cons, sum_vals_cons, ih, List.map_cons, List.map_cons,
      List.sum_cons, List.sum_cons]
    ring

lemma sum_vals_apply_tx (b : List (String × Int)) (t : Tx)
    (hnd : (b.map Prod.fst).Nodup)
    (hf : t.tx_from ∈ b.map Prod.fst) (ht : t.tx_to ∈ b.map Prod.fst) :
    sum_vals (apply_tx b t) = sum_vals b := by
  rw [sum_vals_apply_tx_eq, sum_ite_key t.tx_from t.amount b hnd hf,
    sum_ite_key t.tx_to t.amount b hnd ht]
  ring

lemma keys_apply_tx (b : List (String × Int)) (t : Tx) :
    (apply_tx b t).map Prod.fst = b.map Prod.fst := by
  unfold apply_tx
  exact keys_map_snd b _

lemma sum_vals_apply_txs (txs : List Tx) :
    ∀ b : List (String × Int), (b.map Prod.fst).Nodup →
      (∀ t ∈ txs, t.tx_from ∈ b.map Prod.fst ∧ t.tx_to ∈ b.map Prod.fst) →
      sum_vals (apply_txs b txs) = sum_vals b := by
  induction txs with
  | nil => intro b _ _; rfl
  | cons t ts ih =>
    intro b hnd hmem
    rw [show apply_txs b (t :: ts) = apply_txs (apply_tx b t) ts from rfl]
    have hk := keys_apply_tx b t
    rw [ih (apply_tx b t) (hk ▸ hnd)
      (fun s hs => hk ▸ hmem s (List.mem_cons_of_mem _ hs))]
    obtain ⟨hf, hto⟩ := hmem t (List.mem_cons_self _ _)
    exact sum_vals_apply_tx b t hnd hf hto

lemma settle_loop_tx_mem (cs ds : List (String × Int)) :
    ∀ t ∈ settle_loop cs ds,
      t.tx_to ∈ cs.map Prod.fst ∧ t.tx_from ∈ ds.map Prod.fst := by
  induction cs, ds using settle_loop.induct with
  | case1 ds =>
    intro t ht
    simp [settle_loop] at ht
  | case2 head tail =>
    intro t ht
    simp [settle_loop] at ht
  | case3 c ca cs d da ds hle ih1 ih2 =>
    intro t ht
    rw [settle_loop, if_pos hle] at ht
    rcases List.mem_append.mp ht with h | h
    · by_cases hca : 0 < ca
      · rw [if_pos hca] at h
        rcases List.mem_singleton.mp h with rfl
        exact ⟨List.mem_cons_self _ _, List.mem_cons_self _ _⟩
      · rw [if_neg hca] at h
        simp at h
    · by_cases hz : da - ca = 0
      · rw [if_pos hz] at h
        obtain ⟨h1, h2⟩ := ih1 t h
        exact ⟨List.mem_cons_of_mem _ h1, List.mem_cons_of_mem _ h2⟩
      · rw [if_neg hz] at h
        obtain ⟨h1, h2⟩ := ih2 t h
        refine ⟨List.mem_cons_of_mem _ h1, ?_⟩
        rcases List.mem_cons.mp h2 with h3 | h3
        · exact h3 ▸ List.mem_cons_self _ _
        · exact List.mem_cons_of_mem _ h3
  | case4 c ca cs d da ds hle ih =>
    intro t ht
    rw [settle_loop, if_neg hle] at ht
    rcases List.mem_append.mp ht with h | h
    · by_cases hda : 0 < da
      · rw [if_pos hda] at h
        rcases List.mem_singleton.mp h with rfl
        exact ⟨List.mem_cons_self _ _, List.mem_cons_self _ _⟩
      · rw [if_neg hda] at h
        simp at h
    · obtain ⟨h1, h2⟩ := ih t h
      refine ⟨?_, List.mem_cons_of_mem _ h2⟩
      rcases List.mem_cons.mp h1 with h3 | h3
      · exact h3 ▸ List.mem_cons_self _ _
      · exact List.mem_cons_of_mem _ h3

lemma settle_min_tx_keys (b : List (String × Int)) :
    ∀ t ∈ settle_min_transactions b,
      t.tx_from ∈ b.map Prod.fst ∧ t.tx_to ∈ b.map Prod.fst := by
  intro t ht
  rw [show settle_min_transactions b =
      settle_loop (sort_desc (b.filter fun p => 0 < p.2))
        (sort_desc ((b.filter fun p => p.2 < 0).map fun p => (p.1, -p.2))) from rfl] at ht
  obtain ⟨hto, hfrom⟩ := settle_loop_tx_mem _ _ t ht
  constructor
  · rcases List.mem_map.mp hfrom with ⟨p, hp, hpe⟩
    rw [← hpe]
    have hpD := (perm_sort_desc _).mem_iff.mp hp
    rcases List.mem_map.mp hpD with ⟨r, hr, hre⟩
    rw [← hre]
    exact List.mem_map.mpr ⟨r, (List.filter_sublist b).subset hr, rfl⟩
  · rcases List.mem_map.mp hto with ⟨p, hp, hpe⟩
    rw [← hpe]
    have hpC := (perm_sort_desc _).mem_iff.mp hp
    exact List.mem_map.mpr ⟨p, (List.filter_sublist b).subset hpC, rfl⟩

/-- C10: the balances route always returns successfully — it runs the
settlement planner with no consistency check and no raise — and for every
ledger whose balances do not sum to zero, the settlement list it returns
leaves a residual nonzero balance (applying every planned transaction
conserves the balance total, so a nonzero total cannot be discharged),
unlike the settle-up route. -/
theorem balances_route_skips_consistency_check :
    (∀ l : Ledger, ∃ r, compute_balances l = Except.ok r) ∧
    (∀ l : Ledger, sum_vals (compute_group_balances_decimal l) ≠ 0 →
      ∃ bal txs, compute_balances l = Except.ok (bal, txs) ∧
        ∃ p, p ∈ apply_txs bal txs ∧ p.2 ≠ 0) := by
  refine ⟨fun l => ⟨_, rfl⟩, fun l hne => ?_⟩
  refine ⟨compute_group_balances_decimal l,
    settle_min_transactions (compute_group_balances_decimal l), rfl, ?_⟩
  by_contra hall
  push_neg at hall
  have hnd : ((compute_group_balances_decimal l).map Prod.fst).Nodup := by
    rw [keys_balances]
    exact nodup_dedup_first _ _
  have hsum := sum_vals_apply_txs (settle_min_transactions (compute_group_balances_decimal l))
    (compute_group_balances_decimal l) hnd (settle_min_tx_keys _)
  exact hne (hsum.symm.trans (sum_vals_zero_of_all _ hall))

/-- C10 (witness): on the concrete inconsistent ledger (balances sum to
0.01) the balances route succeeds and its settlement list leaves a nonzero
residual balance. -/
theorem balances_route_skips_consistency_check_witness :
    ∃ bal txs, compute_balances bad_ledger = Except.ok (bal, txs) ∧
      ∃ p, p ∈ apply_txs bal txs ∧ p.2 ≠ 0 :=
  balances_route_skips_consistency_check.2 bad_ledger (by decide)
